import Mathlib

/-!
Shallow embedding of the LCH-Farrow fractional-delay core in Lean 4.

The C++ source stores samples as `std::complex<float>` and coefficients
as `float`.  The embedding models every float value as an exact rational
(`ℚ`): the operations the verified claims depend on (`std::floor`,
`std::fmod`, integer casts, comparisons, additions of exact table values)
are modelled by their exact counterparts.  `static_cast<int>` /
`static_cast<size_t>` of a floating value truncates toward zero, modelled
by `qtrunc` below.  Complex samples are pairs `(re, im) : ℚ × ℚ`.
-/

/-- A complex sample: real and imaginary part, as in `std::complex<float>`. -/
abbrev Cplx := ℚ × ℚ

/-- Complex addition, as in `result += ...` on `std::complex<float>`. -/
def cadd (a b : Cplx) : Cplx := (a.1 + b.1, a.2 + b.2)

/-- Real scalar times complex, as in `coeff * sample_data`. -/
def smul (c : ℚ) (z : Cplx) : Cplx := (c * z.1, c * z.2)

/-- Truncation toward zero, the semantics of `static_cast<int>(x)` and of
the quotient inside `std::fmod` for a C floating value `x`. -/
def qtrunc (x : ℚ) : ℤ := if x < 0 then Int.ceil x else Int.floor x

/-- The Lagrange coefficient matrix of `lagrange_matrix.h`: a flat vector
`matrix_` logically shaped `ROWS × COLS` = 48 × 5. -/
structure LagrangeMatrix where
  matrix_ : List ℚ
deriving DecidableEq

namespace LagrangeMatrix

/-- Constant `LagrangeMatrix::ROWS = 48`. -/
def ROWS : ℕ := 48

/-- Constant `LagrangeMatrix::COLS = 5`. -/
def COLS : ℕ := 5

/-- Member `LagrangeMatrix::IsValid`: the flat store holds exactly ROWS×COLS values. -/
def IsValid (m : LagrangeMatrix) : Bool := m.matrix_.length = ROWS * COLS

/-- Member `LagrangeMatrix::GetCoefficient`: bounds-checked load from the flat
store; out-of-range indices yield `0.0f`. -/
def GetCoefficient (m : LagrangeMatrix) (row col : ℕ) : ℚ :=
  if ROWS ≤ row ∨ COLS ≤ col then 0 else m.matrix_.getD (row * COLS + col) 0

/-- Member `LagrangeMatrix::GetRowIndex` (lagrange_matrix.cpp, lines 117-126):
`delay_fraction = fmod(delay_fraction, 1.0f)`, shift a negative remainder
into `[0,1)` by adding 1, then `static_cast<size_t>(delay_fraction * ROWS)`
clamped to `ROWS - 1`.  `fmod(x, 1)` is `x - trunc x`. -/
def GetRowIndex (_m : LagrangeMatrix) (delay_fraction : ℚ) : ℕ :=
  let f1 : ℚ := delay_fraction - qtrunc delay_fraction
  let f2 : ℚ := if f1 < 0 then f1 + 1 else f1
  let row : ℕ := (qtrunc (f2 * (ROWS : ℚ))).toNat
  if ROWS ≤ row then ROWS - 1 else row

end LagrangeMatrix

/-- Per-beam delay parameters, as the `DelayParams` struct local to
`ExecuteFractionalDelayCPU` (fractional_delay_cpu.cpp, lines 33-36). -/
structure DelayParams where
  delay_integer : ℤ
  lagrange_row : ℤ
deriving DecidableEq

/-- The floor/fraction decomposition of a beam delay
(fractional_delay_cpu.cpp, lines 40-48, identical in
opencl_backend.cpp lines 194-200): `delay_integer = (int)std::floor(delay)`,
`delay_fraction = delay - delay_integer`, and if the fraction is negative
borrow one unit from the integer part. -/
def decomposeDelay (delay : ℚ) : ℤ × ℚ :=
  let di : ℤ := Int.floor delay
  let frac : ℚ := delay - (di : ℚ)
  if frac < 0 then (di - 1, frac + 1) else (di, frac)

/-- Lines 40-55 of fractional_delay_cpp: decompose the delay, then
`lagrange_row = (int)(delay_fraction * LAGRANGE_ROWS)` clamped to
`LAGRANGE_ROWS - 1 = 47`. -/
def computeDelayParams (delay : ℚ) : DelayParams :=
  let d := decomposeDelay delay
  let row : ℤ := qtrunc (d.2 * 48)
  ⟨d.1, if 48 ≤ row then 47 else row⟩

/-- The boundary handling of fractional_delay_cpu.cpp, lines 84-91: first
reflect a negative index about 0, then reflect an index at or past the end
about `num_samples - 1`. -/
def reflectIdx (num_samples : ℕ) (idx0 : ℤ) : ℤ :=
  let idx1 : ℤ := if idx0 < 0 then -idx0 else idx0
  if (num_samples : ℤ) ≤ idx1 then 2 * (num_samples : ℤ) - idx1 - 2 else idx1

/-- One tap of the 5-point interpolation sum (loop body at
fractional_delay_cpu.cpp lines 81-105): reflect the window index, and if it
lands inside `[0, num_samples)` accumulate `coeff * input[idx]`, otherwise
contribute nothing. -/
def tapTerm (lm : LagrangeMatrix) (input : List Cplx) (num_samples : ℕ)
    (p : DelayParams) (n i : ℕ) : Cplx :=
  let idx : ℤ := reflectIdx num_samples ((n : ℤ) - p.delay_integer - 2 + (i : ℤ))
  if 0 ≤ idx ∧ idx < (num_samples : ℤ) then
    smul (lm.GetCoefficient p.lagrange_row.toNat i) (input.getD idx.toNat (0, 0))
  else (0, 0)

/-- Output sample `n` of one beam: the 5-tap Lagrange interpolation sum
(fractional_delay_cpu.cpp lines 74-106). -/
def delayedSample (lm : LagrangeMatrix) (input : List Cplx) (num_samples : ℕ)
    (p : DelayParams) (n : ℕ) : Cplx :=
  (List.range 5).foldl (fun acc i => cadd acc (tapTerm lm input num_samples p n i)) (0, 0)

/-- The whole output stream of one beam (the inner `sample` loop writing the
temporary `output_buffer`). -/
def computeBeamOutput (lm : LagrangeMatrix) (input : List Cplx) (num_samples : ℕ)
    (p : DelayParams) : List Cplx :=
  (List.range num_samples).map (delayedSample lm input num_samples p)

/-- The signal buffer of signal_buffer.h: declared dimensions plus the
per-beam storage `beams_`. -/
structure SignalBuffer where
  num_beams : ℕ
  num_samples : ℕ
  beams_ : List (List Cplx)
deriving DecidableEq

namespace SignalBuffer

/-- Member `SignalBuffer::IsValid` (signal_buffer.cpp lines 137-157): dimension
ranges 1-256 beams and 100-1300000 samples, `beams_` holds exactly
`num_beams` rows, each of exactly `num_samples` samples. -/
def IsValid (b : SignalBuffer) : Bool :=
  (1 ≤ b.num_beams && b.num_beams ≤ 256) &&
  (100 ≤ b.num_samples && b.num_samples ≤ 1300000) &&
  (b.beams_.length = b.num_beams) &&
  b.beams_.all (fun beam => beam.length = b.num_samples)

/-- Member `SignalBuffer::GetBeamData` (signal_buffer.cpp lines 103-117): `nullptr`
when the beam index is not below `num_beams_`; a read of a `beams_` entry
that does not exist is undefined in the C++ and modelled as absence. -/
def GetBeamData (b : SignalBuffer) (beam_id : ℕ) : Option (List Cplx) :=
  if b.num_beams ≤ beam_id then none else b.beams_[beam_id]?

end SignalBuffer

/-- The first per-beam loop of `ExecuteFractionalDelayCPU` (lines 60-111):
fetch each beam's data (failing if `GetBeamData` yields null) and fill the
temporary output buffer with the interpolated samples.  `beam` counts up
while `fuel` counts the beams still to process. -/
def computeLoopAux (buf : SignalBuffer) (lm : LagrangeMatrix) (delays : ℕ → ℚ)
    (num_samples : ℕ) : ℕ → ℕ → Option (List (List Cplx))
  | _, 0 => some []
  | beam, fuel + 1 =>
    (buf.GetBeamData beam).bind fun input =>
      (computeLoopAux buf lm delays num_samples (beam + 1) fuel).map fun rest =>
        computeBeamOutput lm input num_samples (computeDelayParams (delays beam)) :: rest

/-- Overwrite the first `newVals.length` entries of a beam's storage with
`newVals`, keeping any tail beyond them (the `output_data[sample] = ...`
loop writes indices `0..num_samples-1` only). -/
def overwriteFront (old newVals : List Cplx) : List Cplx :=
  newVals ++ old.drop newVals.length

/-- The write-back loop of `ExecuteFractionalDelayCPU` (lines 113-125):
for each beam fetch the output pointer (returning failure, with the buffer
as mutated so far, if `GetBeamData` yields null) and copy the temporary
buffer's row into it. -/
def writeBackAux (outputs : List (List Cplx)) :
    SignalBuffer → ℕ → ℕ → Bool × SignalBuffer
  | buf, _, 0 => (true, buf)
  | buf, beam, fuel + 1 =>
    (buf.GetBeamData beam).elim (false, buf) fun old =>
      writeBackAux outputs
        { buf with beams_ := buf.beams_.set beam (overwriteFront old (outputs.getD beam [])) }
        (beam + 1) fuel

/-- Function `ExecuteFractionalDelayCPU` (fractional_delay_cpu.cpp lines 6-128):
validate the Lagrange matrix and the buffer dimensions, compute every
output sample from the pre-call input into a temporary buffer, then copy
the temporary buffer back into the signal buffer.  The C++ returns `bool`
and mutates `input_output` in place; the embedding returns the flag paired
with the resulting buffer state (the unchanged input on failure paths). -/
def ExecuteFractionalDelayCPU (buf : SignalBuffer) (lm : LagrangeMatrix)
    (delays : ℕ → ℚ) (num_beams num_samples : ℕ) : Bool × SignalBuffer :=
  if ¬ lm.IsValid then (false, buf)
  else if buf.num_beams ≠ num_beams ∨ buf.num_samples ≠ num_samples then (false, buf)
  else
    (computeLoopAux buf lm delays num_samples 0 num_beams).elim (false, buf)
      fun outputs => writeBackAux outputs buf 0 num_beams

lemma qtrunc_of_nonneg {x : ℚ} (h : 0 ≤ x) : qtrunc x = ⌊x⌋ := by
  simp [qtrunc, not_lt.2 h]

lemma qtrunc_of_neg {x : ℚ} (h : x < 0) : qtrunc x = ⌈x⌉ := by
  simp [qtrunc, h]

lemma ceil_eq_floor_add_one_of_fract_ne {x : ℚ} (h : Int.fract x ≠ 0) :
    ⌈x⌉ = ⌊x⌋ + 1 := by
  have hc : (⌈x⌉ : ℚ) = x + 1 - Int.fract x := Int.ceil_eq_add_one_sub_fract h
  have hf : x - (⌊x⌋ : ℚ) = Int.fract x := Int.self_sub_floor x
  have : (⌈x⌉ : ℚ) = ((⌊x⌋ + 1 : ℤ) : ℚ) := by push_cast; linarith
  exact_mod_cast this

lemma normFrac_eq_fract (x : ℚ) :
    (if x - (qtrunc x : ℚ) < 0 then x - (qtrunc x : ℚ) + 1 else x - (qtrunc x : ℚ))
      = Int.fract x := by
  rcases lt_or_le x 0 with hx | hx
  · rw [qtrunc_of_neg hx]
    by_cases hf : Int.fract x = 0
    · have hxf : x = (⌊x⌋ : ℚ) := by
        have h1 : x - (⌊x⌋ : ℚ) = Int.fract x := Int.self_sub_floor x
        rw [hf] at h1; linarith
      have hce : ⌈x⌉ = ⌊x⌋ := by
        rw [hxf, Int.ceil_intCast, Int.floor_intCast]
      rw [hce, Int.self_sub_floor, hf]
      norm_num
    · have hc : (⌈x⌉ : ℚ) = x + 1 - Int.fract x := Int.ceil_eq_add_one_sub_fract hf
      have h1 : x - (⌈x⌉ : ℚ) = Int.fract x - 1 := by rw [hc]; ring
      have h2 : x - (⌈x⌉ : ℚ) < 0 := by
        have := Int.fract_lt_one x; linarith
      rw [if_pos h2, h1]; ring
  · rw [qtrunc_of_nonneg hx]
    have h1 : x - (⌊x⌋ : ℚ) = Int.fract x := Int.self_sub_floor x
    rw [h1, if_neg (not_lt.2 (Int.fract_nonneg x))]

lemma getRowIndex_eq (m : LagrangeMatrix) (x : ℚ) :
    m.GetRowIndex x = (⌊Int.fract x * 48⌋).toNat := by
  unfold LagrangeMatrix.GetRowIndex
  simp only [LagrangeMatrix.ROWS]
  rw [show ((48 : ℕ) : ℚ) = (48 : ℚ) by norm_num]
  rw [normFrac_eq_fract x]
  have hnn : 0 ≤ Int.fract x * 48 := by
    have := Int.fract_nonneg x; positivity
  rw [qtrunc_of_nonneg hnn]
  have hlt : ⌊Int.fract x * 48⌋ < 48 := by
    rw [Int.floor_lt]
    have := Int.fract_lt_one x
    push_cast
    nlinarith
  have hge : 0 ≤ ⌊Int.fract x * 48⌋ := Int.floor_nonneg.2 hnn
  have : ¬ 48 ≤ (⌊Int.fract x * 48⌋).toNat := by omega
  simp [this]

lemma getRowIndex_le (m : LagrangeMatrix) (x : ℚ) : m.GetRowIndex x ≤ 47 := by
  rw [getRowIndex_eq]
  have hnn : 0 ≤ Int.fract x * 48 := by
    have := Int.fract_nonneg x; positivity
  have hlt : ⌊Int.fract x * 48⌋ < 48 := by
    rw [Int.floor_lt]
    have := Int.fract_lt_one x
    push_cast
    nlinarith
  omega

lemma decomposeDelay_eq (d : ℚ) : decomposeDelay d = (⌊d⌋, Int.fract d) := by
  unfold decomposeDelay
  have h1 : d - (⌊d⌋ : ℚ) = Int.fract d := Int.self_sub_floor d
  simp only [h1, if_neg (not_lt.2 (Int.fract_nonneg d))]

/-- Modelled from the spec's words, for comparison with the source's
`reflectIdx`: "if idx < 0, replace with −idx; if idx ≥ num_samples, replace
with 2·num_samples − idx − 2", the two steps applied in order. -/
def reflectPolicySpec (num_samples : ℕ) (idx : ℤ) : ℤ :=
  let step1 : ℤ := if idx < 0 then -idx else idx
  let step2 : ℤ := if (num_samples : ℤ) ≤ step1 then 2 * (num_samples : ℤ) - step1 - 2 else step1
  step2

/-- C2: window indices are resolved by the two-step reflect policy applied
in order; for num_samples = 100 an access at −3 resolves to 3 and one at
100 resolves to 98; a tap whose resolved index is still outside
`[0, num_samples)` contributes zero to the interpolation sum. -/
theorem claim_C2_boundary_policy :
    (∀ (num_samples : ℕ) (idx : ℤ), reflectIdx num_samples idx = reflectPolicySpec num_samples idx)
    ∧ reflectIdx 100 (-3) = 3
    ∧ reflectIdx 100 100 = 98
    ∧ ∀ (lm : LagrangeMatrix) (input : List Cplx) (num_samples : ℕ)
        (p : DelayParams) (n i : ℕ),
        ¬ (0 ≤ reflectIdx num_samples ((n : ℤ) - p.delay_integer - 2 + (i : ℤ)) ∧
           reflectIdx num_samples ((n : ℤ) - p.delay_integer - 2 + (i : ℤ)) < (num_samples : ℤ)) →
        tapTerm lm input num_samples p n i = (0, 0) := by
  refine ⟨fun ns idx => rfl, by decide, by decide, ?_⟩
  intro lm input ns p n i h
  unfold tapTerm
  simp only [if_neg h]

/-- Witness for C2 at concrete inputs: with delay_integer = 197 the first
tap of output sample 0 (window index −199) reflects to 199 and then to −1,
still out of range for 100 samples, so the tap contributes zero. -/
theorem claim_C2_boundary_policy_witness :
    tapTerm ⟨[]⟩ [] 100 ⟨197, 0⟩ 0 0 = (0, 0) :=
  claim_C2_boundary_policy.2.2.2 ⟨[]⟩ [] 100 ⟨197, 0⟩ 0 0 (by decide)

/-- C3: a delay whose truncation-style fractional part is negative is
normalized into `[0,1)` by borrowing one unit from the integer part; in
particular −0.3 decomposes to integer −1 and fraction 0.7, with
lagrange_row = 33 = floor(0.7 × 48). -/
theorem claim_C3_negative_fraction_normalization :
    decomposeDelay (-3/10) = (-1, 7/10)
    ∧ computeDelayParams (-3/10) = ⟨-1, 33⟩
    ∧ (∀ d : ℚ, d - (qtrunc d : ℚ) < 0 →
        decomposeDelay d = (qtrunc d - 1, (d - (qtrunc d : ℚ)) + 1))
    ∧ ∀ d : ℚ, 0 ≤ (decomposeDelay d).2 ∧ (decomposeDelay d).2 < 1 := by
  refine ⟨by norm_num [decomposeDelay], by norm_num [computeDelayParams, decomposeDelay, qtrunc], ?_, ?_⟩
  · intro d hd
    have hdneg : d < 0 := by
      by_contra hge
      rw [qtrunc_of_nonneg (not_lt.1 hge), Int.self_sub_floor] at hd
      exact absurd hd (not_lt.2 (Int.fract_nonneg d))
    rw [qtrunc_of_neg hdneg] at hd ⊢
    have hf : Int.fract d ≠ 0 := by
      intro h0
      have hxf : d = (⌊d⌋ : ℚ) := by
        have h1 : d - (⌊d⌋ : ℚ) = Int.fract d := Int.self_sub_floor d
        rw [h0] at h1; linarith
      have hce : ⌈d⌉ = ⌊d⌋ := by rw [hxf, Int.ceil_intCast, Int.floor_intCast]
      rw [hce, Int.self_sub_floor, h0] at hd
      exact absurd hd (lt_irrefl 0)
    have hcf : ⌈d⌉ = ⌊d⌋ + 1 := ceil_eq_floor_add_one_of_fract_ne hf
    rw [decomposeDelay_eq, hcf]
    simp only [Prod.mk.injEq]
    constructor
    · omega
    · have h1 : d - (⌊d⌋ : ℚ) = Int.fract d := Int.self_sub_floor d
      push_cast
      linarith
  · intro d
    rw [decomposeDelay_eq]
    exact ⟨Int.fract_nonneg d, Int.fract_lt_one d⟩

/-- Witness for C3: the borrowing conjunct applied at delay −0.3, whose
truncation-style fractional part −0.3 is negative. -/
theorem claim_C3_negative_fraction_normalization_witness :
    decomposeDelay (-3/10) = ((qtrunc (-3/10 : ℚ)) - 1, ((-3/10 : ℚ) - (qtrunc (-3/10 : ℚ) : ℚ)) + 1) :=
  claim_C3_negative_fraction_normalization.2.2.1 (-3/10) (by
    have hc : ⌈-((3:ℚ)/10)⌉ = (0 : ℤ) := by
      rw [Int.ceil_neg]
      norm_num
    norm_num [qtrunc, hc])

/-- C4: for every fractional delay in `[0,1)`, GetRowIndex returns
`floor(f × 48)` clamped to 47, always in `[0,47]`; GetRowIndex 0 = 0 and
GetRowIndex (1 − ε) = 47 for every ε with 0 < ε ≤ 1/48. -/
theorem claim_C4_row_mapping_bounds :
    (∀ (m : LagrangeMatrix) (f : ℚ), 0 ≤ f → f < 1 →
        m.GetRowIndex f = min (⌊f * 48⌋).toNat 47 ∧ m.GetRowIndex f ≤ 47)
    ∧ (∀ m : LagrangeMatrix, m.GetRowIndex 0 = 0)
    ∧ ∀ (m : LagrangeMatrix) (ε : ℚ), 0 < ε → ε ≤ 1/48 → m.GetRowIndex (1 - ε) = 47 := by
  refine ⟨?_, ?_, ?_⟩
  · intro m f h0 h1
    have hfr : Int.fract f = f := Int.fract_eq_self.2 ⟨h0, h1⟩
    have hle := getRowIndex_le m f
    refine ⟨?_, hle⟩
    rw [getRowIndex_eq, hfr]
    rw [getRowIndex_eq, hfr] at hle
    omega
  · intro m
    have := getRowIndex_eq m 0
    simpa using this
  · intro m ε hε0 hε1
    have h0 : 0 ≤ 1 - ε := by linarith
    have h1 : 1 - ε < 1 := by linarith
    have hfr : Int.fract (1 - ε) = 1 - ε := Int.fract_eq_self.2 ⟨h0, h1⟩
    rw [getRowIndex_eq, hfr]
    have hfl : ⌊(1 - ε) * 48⌋ = 47 := by
      rw [Int.floor_eq_iff]
      constructor
      · push_cast; nlinarith
      · push_cast; nlinarith
    rw [hfl]
    rfl

/-- Witness for C4: row index of 1/4 is 12 = min(floor 12) 47, the row
index of 0 is 0, and the row index of 1 − 1/48 = 47/48 is 47. -/
theorem claim_C4_row_mapping_bounds_witness :
    ((LagrangeMatrix.mk []).GetRowIndex (1/4) = min ((⌊(1/4 : ℚ) * 48⌋).toNat) 47
      ∧ (LagrangeMatrix.mk []).GetRowIndex (1/4) ≤ 47)
    ∧ (LagrangeMatrix.mk []).GetRowIndex (1 - 1/48) = 47 :=
  ⟨(claim_C4_row_mapping_bounds.1 ⟨[]⟩ (1/4) (by norm_num) (by norm_num)),
   claim_C4_row_mapping_bounds.2.2 ⟨[]⟩ (1/48) (by norm_num) (by norm_num)⟩

/-- C10: GetRowIndex is total over every rational input, agreeing with its
value on the fractional part and always landing in `[0,47]`; in particular
GetRowIndex (−0.3) = GetRowIndex 0.7 and GetRowIndex 1 = 0. -/
theorem claim_C10_getrowindex_total :
    (∀ (m : LagrangeMatrix) (x : ℚ),
        m.GetRowIndex x = m.GetRowIndex (Int.fract x) ∧ m.GetRowIndex x ≤ 47)
    ∧ (LagrangeMatrix.mk []).GetRowIndex (-3/10) = (LagrangeMatrix.mk []).GetRowIndex (7/10)
    ∧ (LagrangeMatrix.mk []).GetRowIndex 1 = 0 := by
  refine ⟨?_, ?_, ?_⟩
  case refine_2 =>
    rw [getRowIndex_eq, getRowIndex_eq]
    norm_num [Int.fract]
  case refine_3 =>
    rw [getRowIndex_eq]
    norm_num [Int.fract]
  case refine_1 =>
    intro m x
    refine ⟨?_, getRowIndex_le m x⟩
    rw [getRowIndex_eq, getRowIndex_eq, Int.fract_fract]

lemma getBeamData_eq_some {buf : SignalBuffer} {beam : ℕ}
    (h1 : beam < buf.num_beams) (h2 : beam < buf.beams_.length) :
    buf.GetBeamData beam = some (buf.beams_.getD beam []) := by
  unfold SignalBuffer.GetBeamData
  rw [if_neg (not_le.2 h1), List.getElem?_eq_getElem h2, List.getD_eq_getElem buf.beams_ [] h2]

lemma getBeamData_some_bounds {buf : SignalBuffer} {beam : ℕ} {v : List Cplx}
    (h : buf.GetBeamData beam = some v) :
    beam < buf.num_beams ∧ beam < buf.beams_.length := by
  unfold SignalBuffer.GetBeamData at h
  by_cases hc : buf.num_beams ≤ beam
  · rw [if_pos hc] at h; cases h
  · rw [if_neg hc] at h
    obtain ⟨hlt, -⟩ := List.getElem?_eq_some_iff.1 h
    exact ⟨not_le.1 hc, hlt⟩

lemma computeLoopAux_zero (buf : SignalBuffer) (lm : LagrangeMatrix)
    (delays : ℕ → ℚ) (ns beam : ℕ) :
    computeLoopAux buf lm delays ns beam 0 = some [] := rfl

lemma computeLoopAux_succ (buf : SignalBuffer) (lm : LagrangeMatrix)
    (delays : ℕ → ℚ) (ns beam n : ℕ) :
    computeLoopAux buf lm delays ns beam (n + 1) =
      (buf.GetBeamData beam).bind fun input =>
        (computeLoopAux buf lm delays ns (beam + 1) n).map fun rest =>
          computeBeamOutput lm input ns (computeDelayParams (delays beam)) :: rest := rfl

lemma computeLoopAux_eq_some (buf : SignalBuffer) (lm : LagrangeMatrix)
    (delays : ℕ → ℚ) (ns : ℕ) :
    ∀ (fuel beam : ℕ),
    (∀ j, j < fuel → beam + j < buf.num_beams ∧ beam + j < buf.beams_.length) →
    computeLoopAux buf lm delays ns beam fuel =
      some ((List.range fuel).map fun j =>
        computeBeamOutput lm (buf.beams_.getD (beam + j) []) ns
          (computeDelayParams (delays (beam + j)))) := by
  intro fuel
  induction fuel with
  | zero => intro beam _; simp [computeLoopAux_zero]
  | succ n ih =>
    intro beam h
    have h0 := h 0 n.succ_pos
    simp only [Nat.add_zero] at h0
    have hih := ih (beam + 1) (fun j hj => by
      have := h (j + 1) (Nat.succ_lt_succ hj)
      constructor <;> omega)
    rw [computeLoopAux_succ, getBeamData_eq_some h0.1 h0.2, hih]
    simp only [Option.some_bind, Option.map_some']
    refine congrArg some ?_
    rw [List.range_succ_eq_map, List.map_cons, List.map_map]
    refine congrArg₂ List.cons ?_ ?_
    · simp
    · refine List.map_congr_left ?_
      intro a _
      have hsh : beam + 1 + a = beam + (a + 1) := by omega
      simp [Function.comp, hsh]

lemma computeLoopAux_some_bounds (buf : SignalBuffer) (lm : LagrangeMatrix)
    (delays : ℕ → ℚ) (ns : ℕ) :
    ∀ (fuel beam : ℕ) (outs : List (List Cplx)),
    computeLoopAux buf lm delays ns beam fuel = some outs →
    ∀ j, j < fuel → beam + j < buf.num_beams ∧ beam + j < buf.beams_.length := by
  intro fuel
  induction fuel with
  | zero => intro beam outs _ j hj; omega
  | succ n ih =>
    intro beam outs h j hj
    rw [computeLoopAux_succ] at h
    cases hgb : buf.GetBeamData beam with
    | none => rw [hgb] at h; cases h
    | some input =>
      rw [hgb] at h
      have hb := getBeamData_some_bounds hgb
      cases hrest : computeLoopAux buf lm delays ns (beam + 1) n with
      | none => rw [hrest] at h; cases h
      | some rest =>
        cases j with
        | zero => simpa using hb
        | succ k =>
          have := ih (beam + 1) rest hrest k (by omega)
          constructor <;> omega

lemma writeBackAux_zero (outputs : List (List Cplx)) (buf : SignalBuffer) (beam : ℕ) :
    writeBackAux outputs buf beam 0 = (true, buf) := rfl

lemma writeBackAux_succ (outputs : List (List Cplx)) (buf : SignalBuffer) (beam n : ℕ) :
    writeBackAux outputs buf beam (n + 1) =
      (buf.GetBeamData beam).elim (false, buf) (fun old =>
        writeBackAux outputs
          { buf with beams_ := buf.beams_.set beam (overwriteFront old (outputs.getD beam [])) }
          (beam + 1) n) := rfl

lemma writeBackAux_spec (outputs : List (List Cplx)) :
    ∀ (fuel beam : ℕ) (buf : SignalBuffer),
    (∀ j, j < fuel → beam + j < buf.num_beams ∧ beam + j < buf.beams_.length) →
    (writeBackAux outputs buf beam fuel).1 = true ∧
    (writeBackAux outputs buf beam fuel).2.num_beams = buf.num_beams ∧
    (writeBackAux outputs buf beam fuel).2.num_samples = buf.num_samples ∧
    (writeBackAux outputs buf beam fuel).2.beams_.length = buf.beams_.length ∧
    ∀ b : ℕ, (writeBackAux outputs buf beam fuel).2.beams_[b]? =
      if beam ≤ b ∧ b < beam + fuel
      then (buf.beams_[b]?).map (fun old => overwriteFront old (outputs.getD b []))
      else buf.beams_[b]? := by
  intro fuel
  induction fuel with
  | zero =>
    intro beam buf _
    rw [writeBackAux_zero]
    refine ⟨rfl, rfl, rfl, rfl, ?_⟩
    intro b
    rw [if_neg (by omega)]
  | succ n ih =>
    intro beam buf h
    have h0 := h 0 n.succ_pos
    simp only [Nat.add_zero] at h0
    rw [writeBackAux_succ, getBeamData_eq_some h0.1 h0.2, Option.elim_some]
    set buf' : SignalBuffer :=
      ⟨buf.num_beams, buf.num_samples,
        buf.beams_.set beam (overwriteFront (buf.beams_.getD beam []) (outputs.getD beam []))⟩
      with hbuf'
    have hlen' : buf'.beams_.length = buf.beams_.length := by
      rw [hbuf']; exact List.length_set buf.beams_ beam _
    have hnb' : buf'.num_beams = buf.num_beams := rfl
    have hns' : buf'.num_samples = buf.num_samples := rfl
    have hih := ih (beam + 1) buf' (fun j hj => by
      have := h (j + 1) (Nat.succ_lt_succ hj)
      rw [hnb', hlen']
      constructor <;> omega)
    refine ⟨hih.1, by rw [hih.2.1, hnb'], by rw [hih.2.2.1, hns'], by rw [hih.2.2.2.1, hlen'], ?_⟩
    intro b
    rw [hih.2.2.2.2 b]
    by_cases hb1 : b = beam
    · subst hb1
      rw [if_neg (by omega), if_pos (by omega)]
      rw [hbuf']
      show (buf.beams_.set b _)[b]? = _
      rw [List.getElem?_set_eq_of_lt _ h0.2,
        List.getElem?_eq_getElem h0.2, Option.map_some']
      refine congrArg some ?_
      rw [List.getD_eq_getElem buf.beams_ [] h0.2]
    · have hget' : buf'.beams_[b]? = buf.beams_[b]? := by
        rw [hbuf']
        exact List.getElem?_set_ne (fun he => hb1 he.symm)
      rw [hget']
      by_cases hb2 : beam + 1 ≤ b ∧ b < beam + 1 + n
      · rw [if_pos hb2, if_pos (by omega)]
      · rw [if_neg hb2, if_neg (by omega)]

lemma executeFDC_checks_pass (buf : SignalBuffer) (lm : LagrangeMatrix)
    (delays : ℕ → ℚ) (nb ns : ℕ)
    (hlm : lm.IsValid = true) (hb : buf.num_beams = nb) (hs : buf.num_samples = ns) :
    ExecuteFractionalDelayCPU buf lm delays nb ns =
      (computeLoopAux buf lm delays ns 0 nb).elim (false, buf)
        (fun outputs => writeBackAux outputs buf 0 nb) := by
  unfold ExecuteFractionalDelayCPU
  rw [if_neg (by simp [hlm]), if_neg (by simp [hb, hs])]

/-- C1: on a buffer whose dimensions match the arguments (its per-beam rows
present) and a valid Lagrange matrix, ExecuteFractionalDelayCPU returns true
and replaces each beam's sample `n` by the 5-tap interpolation sum
`delayedSample`, evaluated on the pre-call input of that beam with the
floor/fraction-decomposed delay parameters. -/
theorem claim_C1_execute_cpu_functional (buf : SignalBuffer) (lm : LagrangeMatrix)
    (delays : ℕ → ℚ) (nb ns : ℕ)
    (hlm : lm.IsValid = true)
    (hb : buf.num_beams = nb) (hs : buf.num_samples = ns)
    (hlen : nb ≤ buf.beams_.length) :
    (ExecuteFractionalDelayCPU buf lm delays nb ns).1 = true ∧
    (ExecuteFractionalDelayCPU buf lm delays nb ns).2.num_beams = nb ∧
    (ExecuteFractionalDelayCPU buf lm delays nb ns).2.num_samples = ns ∧
    ∀ beam, beam < nb → ∀ n, n < ns →
      ((ExecuteFractionalDelayCPU buf lm delays nb ns).2.beams_.getD beam []).getD n (0, 0) =
        delayedSample lm (buf.beams_.getD beam []) ns (computeDelayParams (delays beam)) n := by
  have hbounds : ∀ j, j < nb → 0 + j < buf.num_beams ∧ 0 + j < buf.beams_.length := by
    intro j hj; constructor <;> omega
  have hcl := computeLoopAux_eq_some buf lm delays ns nb 0 hbounds
  set outputs : List (List Cplx) := (List.range nb).map fun j =>
    computeBeamOutput lm (buf.beams_.getD (0 + j) []) ns (computeDelayParams (delays (0 + j)))
    with houtputs
  have hwb := writeBackAux_spec outputs nb 0 buf hbounds
  have hex : ExecuteFractionalDelayCPU buf lm delays nb ns = writeBackAux outputs buf 0 nb := by
    rw [executeFDC_checks_pass buf lm delays nb ns hlm hb hs, hcl, Option.elim_some]
  rw [hex]
  refine ⟨hwb.1, by rw [hwb.2.1, hb], by rw [hwb.2.2.1, hs], ?_⟩
  intro beam hbeam n hn
  have hg := hwb.2.2.2.2 beam
  rw [if_pos (by omega)] at hg
  have hbl : beam < buf.beams_.length := by omega
  have houter : (writeBackAux outputs buf 0 nb).2.beams_.getD beam [] =
      overwriteFront (buf.beams_.getD beam []) (outputs.getD beam []) := by
    rw [List.getD_eq_getElem?_getD ((writeBackAux outputs buf 0 nb).2.beams_) beam [], hg,
      List.getElem?_eq_getElem hbl, Option.map_some', Option.getD_some,
      List.getD_eq_getElem buf.beams_ [] hbl]
  have houts : outputs.getD beam [] =
      computeBeamOutput lm (buf.beams_.getD beam []) ns (computeDelayParams (delays beam)) := by
    rw [houtputs, List.getD_eq_getElem?_getD, List.getElem?_map]
    rw [List.getElem?_range hbeam, Option.map_some', Option.getD_some, Nat.zero_add]
  rw [houter, houts]
  have hnewlen : (computeBeamOutput lm (buf.beams_.getD beam []) ns
      (computeDelayParams (delays beam))).length = ns := by
    unfold computeBeamOutput; rw [List.length_map, List.length_range]
  unfold overwriteFront
  rw [List.getD_eq_getElem?_getD, List.getElem?_append_left (by omega)]
  unfold computeBeamOutput
  rw [List.getElem?_map, List.getElem?_range hn, Option.map_some', Option.getD_some]

/-- A concrete 48×5 all-zero Lagrange matrix used by concrete instances. -/
def lmZero : LagrangeMatrix := ⟨List.replicate 240 0⟩

/-- A concrete two-sample one-beam signal buffer used by concrete instances. -/
def bufSmall : SignalBuffer := ⟨1, 2, [[(1, 0), (2, 0)]]⟩

/-- Witness for C1: the theorem applied to a concrete 1-beam 2-sample buffer,
a valid all-zero matrix and zero delays. -/
theorem claim_C1_execute_cpu_functional_witness :
    (ExecuteFractionalDelayCPU bufSmall lmZero (fun _ => 0) 1 2).1 = true ∧
    ((ExecuteFractionalDelayCPU bufSmall lmZero (fun _ => 0) 1 2).2.beams_.getD 0 []).getD 1 (0, 0) =
      delayedSample lmZero [(1, 0), (2, 0)] 2 (computeDelayParams 0) 1 := by
  have hlm : lmZero.IsValid = true := by
    rw [show lmZero.IsValid = decide ((List.replicate 240 (0:ℚ)).length = 48 * 5) from rfl]
    rw [List.length_replicate]
    decide
  have h := claim_C1_execute_cpu_functional bufSmall lmZero (fun _ => 0) 1 2 hlm rfl rfl
    (by simp [bufSmall])
  exact ⟨h.1, h.2.2.2 0 (by norm_num) 1 (by norm_num)⟩

/-- C9: whenever ExecuteFractionalDelayCPU reports failure, the signal
buffer is exactly the pre-call buffer: all failure checks precede the
write-back loop, and a write-back that starts always runs to completion. -/
theorem claim_C9_failure_leaves_buffer_unchanged (buf : SignalBuffer) (lm : LagrangeMatrix)
    (delays : ℕ → ℚ) (nb ns : ℕ)
    (h : (ExecuteFractionalDelayCPU buf lm delays nb ns).1 = false) :
    (ExecuteFractionalDelayCPU buf lm delays nb ns).2 = buf := by
  unfold ExecuteFractionalDelayCPU at h ⊢
  by_cases h1 : ¬ (lm.IsValid = true)
  · rw [if_pos h1]
  · rw [if_neg h1] at h ⊢
    by_cases h2 : buf.num_beams ≠ nb ∨ buf.num_samples ≠ ns
    · rw [if_pos h2]
    · rw [if_neg h2] at h ⊢
      cases hcl : computeLoopAux buf lm delays ns 0 nb with
      | none => rfl
      | some outs =>
        rw [hcl, Option.elim_some] at h
        have hbounds := computeLoopAux_some_bounds buf lm delays ns nb 0 outs hcl
        have hwb := writeBackAux_spec outs nb 0 buf hbounds
        rw [hwb.1] at h
        cases h

/-- Witness for C9: calling with an invalid (empty) Lagrange matrix fails
and returns the untouched concrete buffer. -/
theorem claim_C9_failure_leaves_buffer_unchanged_witness :
    (ExecuteFractionalDelayCPU bufSmall ⟨[]⟩ (fun _ => 0) 1 2).2 = bufSmall :=
  claim_C9_failure_leaves_buffer_unchanged bufSmall ⟨[]⟩ (fun _ => 0) 1 2 (by
    unfold ExecuteFractionalDelayCPU
    rw [if_pos (by simp [LagrangeMatrix.IsValid, LagrangeMatrix.ROWS, LagrangeMatrix.COLS])])

/-- Complex difference, as `cpu_val - gpu_val` on `std::complex<float>`. -/
def csub (a b : Cplx) : Cplx := (a.1 - b.1, a.2 - b.2)

/-- The comparison metrics struct of result_comparator.h. -/
structure ComparisonMetrics where
  max_diff_real : ℚ
  max_diff_imag : ℚ
  max_diff_magnitude : ℚ
  avg_diff_magnitude : ℚ
  max_relative_error : ℚ
  errors_above_tolerance : ℕ
  total_points : ℕ
deriving DecidableEq

/-- The default-constructed (all-zero) ComparisonMetrics. -/
def ComparisonMetrics.init : ComparisonMetrics := ⟨0, 0, 0, 0, 0, 0, 0⟩

/-- The running accumulator of the comparison loop in result_comparator.cpp
(lines 37-43): the six local variables updated per point. -/
structure CmpAcc where
  max_diff_real : ℚ
  max_diff_imag : ℚ
  max_diff_magnitude : ℚ
  sum_diff_magnitude : ℚ
  max_relative_error : ℚ
  errors_count : ℕ
deriving DecidableEq

/-- The zero-initialised accumulator. -/
def CmpAcc.init : CmpAcc := ⟨0, 0, 0, 0, 0, 0⟩

/-- One point of the comparison loop (result_comparator.cpp lines 56-85).
`mag` abstracts the complex magnitude `std::abs : complex<float> → float`
(an exact square root does not stay inside ℚ); every use the comparator
makes of it is explicit here.  The `1e-10` guard of the relative error is
modelled by the exact rational `1/10^10`. -/
def stepPoint (mag : Cplx → ℚ) (tolerance : ℚ) (a : CmpAcc) (cpu_val gpu_val : Cplx) : CmpAcc :=
  let diff_real := |cpu_val.1 - gpu_val.1|
  let diff_imag := |cpu_val.2 - gpu_val.2|
  let diff_magnitude := mag (csub cpu_val gpu_val)
  let cpu_magnitude := mag cpu_val
  { max_diff_real := max a.max_diff_real diff_real
    max_diff_imag := max a.max_diff_imag diff_imag
    max_diff_magnitude := max a.max_diff_magnitude diff_magnitude
    sum_diff_magnitude := a.sum_diff_magnitude + diff_magnitude
    max_relative_error :=
      if 1 / 10 ^ 10 < cpu_magnitude
      then max a.max_relative_error (diff_magnitude / cpu_magnitude)
      else a.max_relative_error
    errors_count := if tolerance < diff_magnitude then a.errors_count + 1 else a.errors_count }

/-- The inner `sample` loop of CompareResults over one beam's data. -/
def compareSamplesFold (mag : Cplx → ℚ) (tolerance : ℚ) (cd gd : List Cplx)
    (num_samples : ℕ) (acc : CmpAcc) : CmpAcc :=
  (List.range num_samples).foldl
    (fun a s => stepPoint mag tolerance a (cd.getD s (0, 0)) (gd.getD s (0, 0))) acc

/-- The outer `beam` loop of CompareResults (lines 46-86), failing when
either buffer's `GetBeamData` yields null. -/
def compareLoopAux (mag : Cplx → ℚ) (tolerance : ℚ) (cpu gpu : SignalBuffer)
    (num_samples : ℕ) : ℕ → ℕ → CmpAcc → Option CmpAcc
  | _, 0, acc => some acc
  | beam, fuel + 1, acc =>
    (cpu.GetBeamData beam).bind fun cd =>
      (gpu.GetBeamData beam).bind fun gd =>
        compareLoopAux mag tolerance cpu gpu num_samples (beam + 1) fuel
          (compareSamplesFold mag tolerance cd gd num_samples acc)

/-- Function `CompareResults` (result_comparator.cpp lines 6-104): reject null or
shape-mismatched or invalid buffers, then accumulate the point-wise
metrics over every (beam, sample) pair and package them.  The C++ returns
`bool` plus an out-parameter; the embedding returns the metrics on
success.  `mag` abstracts the float complex magnitude. -/
def CompareResults (mag : Cplx → ℚ) (cpu_results gpu_results : SignalBuffer)
    (tolerance : ℚ) : Option ComparisonMetrics :=
  if cpu_results.num_beams ≠ gpu_results.num_beams ∨
     cpu_results.num_samples ≠ gpu_results.num_samples then none
  else if ¬ cpu_results.IsValid ∨ ¬ gpu_results.IsValid then none
  else
    (compareLoopAux mag tolerance cpu_results gpu_results cpu_results.num_samples 0
        cpu_results.num_beams CmpAcc.init).map fun a =>
      let total_points := cpu_results.num_beams * cpu_results.num_samples
      { max_diff_real := a.max_diff_real
        max_diff_imag := a.max_diff_imag
        max_diff_magnitude := a.max_diff_magnitude
        avg_diff_magnitude :=
          if 0 < total_points then a.sum_diff_magnitude / (total_points : ℚ) else 0
        max_relative_error := a.max_relative_error
        errors_above_tolerance := a.errors_count
        total_points := total_points }

/-- Count of samples of one beam whose magnitude difference exceeds the
tolerance (specification-side counting expression). -/
def beamErrorCount (mag : Cplx → ℚ) (tolerance : ℚ) (cd gd : List Cplx)
    (num_samples : ℕ) : ℕ :=
  ((List.range num_samples).filter
    (fun s => tolerance < mag (csub (cd.getD s (0, 0)) (gd.getD s (0, 0))))).length

/-- Count over all (beam, sample) points of a pair of buffers whose
magnitude difference exceeds the tolerance. -/
def totalErrorCount (mag : Cplx → ℚ) (tolerance : ℚ) (cpu gpu : SignalBuffer) : ℕ :=
  ((List.range cpu.num_beams).map fun b =>
    beamErrorCount mag tolerance (cpu.beams_.getD b []) (gpu.beams_.getD b [])
      cpu.num_samples).sum

lemma isValid_iff (b : SignalBuffer) :
    b.IsValid = true ↔
      (1 ≤ b.num_beams ∧ b.num_beams ≤ 256) ∧
      (100 ≤ b.num_samples ∧ b.num_samples ≤ 1300000) ∧
      b.beams_.length = b.num_beams ∧
      ∀ row ∈ b.beams_, row.length = b.num_samples := by
  simp [SignalBuffer.IsValid, List.all_eq_true, and_assoc]

lemma stepPoint_errors (mag : Cplx → ℚ) (tolerance : ℚ) (a : CmpAcc) (c g : Cplx) :
    (stepPoint mag tolerance a c g).errors_count =
      a.errors_count + (if tolerance < mag (csub c g) then 1 else 0) := by
  unfold stepPoint
  by_cases h : tolerance < mag (csub c g) <;> simp [h]

lemma foldl_stepPoint_errors (mag : Cplx → ℚ) (tolerance : ℚ) (cd gd : List Cplx) :
    ∀ (l : List ℕ) (a : CmpAcc),
    ((l.foldl (fun a s => stepPoint mag tolerance a (cd.getD s (0, 0)) (gd.getD s (0, 0))) a)).errors_count =
      a.errors_count +
        (l.filter (fun s => tolerance < mag (csub (cd.getD s (0, 0)) (gd.getD s (0, 0))))).length := by
  intro l
  induction l with
  | nil => intro a; simp
  | cons x xs ih =>
    intro a
    rw [List.foldl_cons, ih]
    by_cases h : tolerance < mag (csub (cd.getD x (0, 0)) (gd.getD x (0, 0)))
    · rw [List.filter_cons_of_pos (by simpa using h), List.length_cons,
        stepPoint_errors, if_pos h]
      omega
    · rw [List.filter_cons_of_neg (by simpa using h), stepPoint_errors, if_neg h]
      omega

lemma compareSamplesFold_errors (mag : Cplx → ℚ) (tolerance : ℚ) (cd gd : List Cplx)
    (ns : ℕ) (a : CmpAcc) :
    (compareSamplesFold mag tolerance cd gd ns a).errors_count =
      a.errors_count + beamErrorCount mag tolerance cd gd ns := by
  unfold compareSamplesFold beamErrorCount
  exact foldl_stepPoint_errors mag tolerance cd gd (List.range ns) a

lemma compareLoopAux_eq_some (mag : Cplx → ℚ) (tolerance : ℚ) (cpu gpu : SignalBuffer)
    (ns : ℕ) :
    ∀ (fuel beam : ℕ) (acc : CmpAcc),
    (∀ j, j < fuel → beam + j < cpu.num_beams ∧ beam + j < cpu.beams_.length ∧
        beam + j < gpu.num_beams ∧ beam + j < gpu.beams_.length) →
    compareLoopAux mag tolerance cpu gpu ns beam fuel acc =
      some (((List.range fuel).map (beam + ·)).foldl
        (fun a b => compareSamplesFold mag tolerance (cpu.beams_.getD b [])
          (gpu.beams_.getD b []) ns a) acc) := by
  intro fuel
  induction fuel with
  | zero => intro beam acc _; simp [compareLoopAux]
  | succ n ih =>
    intro beam acc h
    have h0 := h 0 n.succ_pos
    simp only [Nat.add_zero] at h0
    show (cpu.GetBeamData beam).bind _ = _
    rw [getBeamData_eq_some h0.1 h0.2.1, Option.some_bind,
      getBeamData_eq_some h0.2.2.1 h0.2.2.2, Option.some_bind,
      ih (beam + 1) _ (fun j hj => by
        have := h (j + 1) (Nat.succ_lt_succ hj)
        refine ⟨by omega, by omega, by omega, by omega⟩)]
    refine congrArg some ?_
    rw [List.range_succ_eq_map, List.map_cons, List.foldl_cons, List.map_map, Nat.add_zero]
    refine congrArg₂ (fun (l : List ℕ) (a : CmpAcc) => l.foldl _ a) ?_ rfl
    refine List.map_congr_left ?_
    intro x _
    simp [Function.comp]
    omega

lemma foldl_compareSamplesFold_errors (mag : Cplx → ℚ) (tolerance : ℚ)
    (cpu gpu : SignalBuffer) (ns : ℕ) :
    ∀ (bs : List ℕ) (a : CmpAcc),
    (bs.foldl (fun a b => compareSamplesFold mag tolerance (cpu.beams_.getD b [])
        (gpu.beams_.getD b []) ns a) a).errors_count =
      a.errors_count + (bs.map fun b => beamErrorCount mag tolerance
        (cpu.beams_.getD b []) (gpu.beams_.getD b []) ns).sum := by
  intro bs
  induction bs with
  | nil => intro a; simp
  | cons x xs ih =>
    intro a
    rw [List.foldl_cons, ih, compareSamplesFold_errors, List.map_cons, List.sum_cons]
    omega

/-- C5: CompareResults fails exactly on shape mismatch (independently of any
buffer contents) or structural invalidity; on two valid same-shape buffers
it always succeeds, reports `num_beams * num_samples` total points, and a
content mismatch only shows up as the count of points whose magnitude
difference exceeds the tolerance. -/
theorem claim_C5_comparator_failure_and_metrics (mag : Cplx → ℚ)
    (cpu gpu : SignalBuffer) (tolerance : ℚ) :
    (cpu.num_beams ≠ gpu.num_beams ∨ cpu.num_samples ≠ gpu.num_samples →
      ∀ bs1 bs2 : List (List Cplx),
        CompareResults mag ⟨cpu.num_beams, cpu.num_samples, bs1⟩
          ⟨gpu.num_beams, gpu.num_samples, bs2⟩ tolerance = none)
    ∧ ((¬ cpu.IsValid = true ∨ ¬ gpu.IsValid = true) →
        CompareResults mag cpu gpu tolerance = none)
    ∧ (cpu.num_beams = gpu.num_beams → cpu.num_samples = gpu.num_samples →
        cpu.IsValid = true → gpu.IsValid = true →
        (CompareResults mag cpu gpu tolerance).isSome = true ∧
        ((CompareResults mag cpu gpu tolerance).getD ComparisonMetrics.init).total_points =
          cpu.num_beams * cpu.num_samples ∧
        ((CompareResults mag cpu gpu tolerance).getD ComparisonMetrics.init).errors_above_tolerance =
          totalErrorCount mag tolerance cpu gpu) := by
  refine ⟨?_, ?_, ?_⟩
  · intro hmm bs1 bs2
    unfold CompareResults
    rw [if_pos (by simpa using hmm)]
  · intro hinv
    unfold CompareResults
    by_cases hsh : cpu.num_beams ≠ gpu.num_beams ∨ cpu.num_samples ≠ gpu.num_samples
    · rw [if_pos hsh]
    · rw [if_neg hsh, if_pos (by simpa using hinv)]
  · intro hnb hns hv1 hv2
    obtain ⟨-, -, hlen1, -⟩ := (isValid_iff cpu).1 hv1
    obtain ⟨-, -, hlen2, -⟩ := (isValid_iff gpu).1 hv2
    have hcl := compareLoopAux_eq_some mag tolerance cpu gpu cpu.num_samples
      cpu.num_beams 0 CmpAcc.init (fun j hj => by
        refine ⟨by omega, by omega, by omega, by omega⟩)
    have hex : CompareResults mag cpu gpu tolerance =
        some (let a := (((List.range cpu.num_beams).map (0 + ·)).foldl
          (fun a b => compareSamplesFold mag tolerance (cpu.beams_.getD b [])
            (gpu.beams_.getD b []) cpu.num_samples a) CmpAcc.init)
          { max_diff_real := a.max_diff_real
            max_diff_imag := a.max_diff_imag
            max_diff_magnitude := a.max_diff_magnitude
            avg_diff_magnitude :=
              if 0 < cpu.num_beams * cpu.num_samples
              then a.sum_diff_magnitude / ((cpu.num_beams * cpu.num_samples : ℕ) : ℚ) else 0
            max_relative_error := a.max_relative_error
            errors_above_tolerance := a.errors_count
            total_points := cpu.num_beams * cpu.num_samples }) := by
      unfold CompareResults
      rw [if_neg (by simp [hnb, hns]), if_neg (by simp [hv1, hv2]), hcl, Option.map_some']
    rw [hex]
    refine ⟨rfl, rfl, ?_⟩
    show (((List.range cpu.num_beams).map (0 + ·)).foldl _ CmpAcc.init).errors_count = _
    rw [foldl_compareSamplesFold_errors]
    have hmap : (List.range cpu.num_beams).map (0 + ·) = List.range cpu.num_beams := by
      refine (List.map_congr_left ?_).trans (List.map_id _)
      intro x _
      simp
    rw [hmap]
    show 0 + _ = _
    rw [Nat.zero_add]
    rfl

/-- A concrete squared-magnitude function standing in for the abstract
complex magnitude in concrete instances. -/
def magSq (z : Cplx) : ℚ := z.1 * z.1 + z.2 * z.2

/-- A concrete valid buffer: 1 beam of 100 zero samples. -/
def bufValid : SignalBuffer := ⟨1, 100, [List.replicate 100 ((0 : ℚ), (0 : ℚ))]⟩

lemma bufValid_isValid : bufValid.IsValid = true := by
  refine (isValid_iff bufValid).2 ⟨⟨?_, ?_⟩, ⟨?_, ?_⟩, ?_, ?_⟩
  · norm_num [bufValid]
  · norm_num [bufValid]
  · norm_num [bufValid]
  · norm_num [bufValid]
  · simp [bufValid]
  · intro row hrow
    simp only [bufValid, List.mem_singleton] at hrow
    subst hrow
    simp [bufValid]

/-- Witness for C5: comparing the concrete valid buffer with itself at
tolerance 0 succeeds, reports 100 points, and counts the over-tolerance
points by the specification-side counting expression. -/
theorem claim_C5_comparator_failure_and_metrics_witness :
    (CompareResults magSq bufValid bufValid 0).isSome = true ∧
    ((CompareResults magSq bufValid bufValid 0).getD ComparisonMetrics.init).total_points = 100 ∧
    ((CompareResults magSq bufValid bufValid 0).getD ComparisonMetrics.init).errors_above_tolerance =
      totalErrorCount magSq 0 bufValid bufValid := by
  have h := (claim_C5_comparator_failure_and_metrics magSq bufValid bufValid 0).2.2
    rfl rfl bufValid_isValid bufValid_isValid
  exact ⟨h.1, h.2.1.trans (by norm_num [bufValid]), h.2.2⟩

/-- One 32-bit record of the SignalBuffer binary file format: an unsigned
32-bit integer (header) or a 32-bit float (sample component).  The float
payload is carried as the exact rational it denotes, so a written value
reads back bit-identically. -/
inductive FileItem where
  | u32 (n : ℕ)
  | f32 (x : ℚ)
deriving DecidableEq

/-- The serialized form of one beam: (real, imaginary) pairs in sample
order. -/
def serializeRow (row : List Cplx) : List FileItem :=
  (row.map fun z => [FileItem.f32 z.1, FileItem.f32 z.2]).flatten

/-- Member `SignalBuffer::SaveToFile` (signal_buffer.cpp lines 70-100): reject an
invalid buffer, then write `num_beams` and `num_samples` as unsigned 32-bit
integers (hence reduced mod 2^32) followed by each beam's samples as
(real, imaginary) float pairs, beam-major.  The filesystem is modelled as
the produced item list; the file-open failure path is not modelled. -/
def SignalBuffer.SaveToFile (buf : SignalBuffer) : Option (List FileItem) :=
  if ¬ buf.IsValid then none
  else some ([FileItem.u32 (buf.num_beams % 2 ^ 32), FileItem.u32 (buf.num_samples % 2 ^ 32)] ++
    ((List.range buf.num_beams).map fun beam =>
      ((List.range buf.num_samples).map fun sample =>
        [FileItem.f32 ((buf.beams_.getD beam []).getD sample (0, 0)).1,
         FileItem.f32 ((buf.beams_.getD beam []).getD sample (0, 0)).2]).flatten).flatten)

/-- Read `n` (real, imaginary) float pairs from the stream (the inner
sample loop of LoadFromFile), failing on a short or ill-typed stream. -/
def readSamplePairs : ℕ → List FileItem → Option (List Cplx × List FileItem)
  | 0, rest => some ([], rest)
  | n + 1, FileItem.f32 re :: FileItem.f32 im :: rest =>
    (readSamplePairs n rest).map fun p => ((re, im) :: p.1, p.2)
  | _ + 1, _ => none

/-- Read `nb` beams of `ns` samples each (the outer beam loop of
LoadFromFile). -/
def readBeams : ℕ → ℕ → List FileItem → Option (List (List Cplx) × List FileItem)
  | 0, _, rest => some ([], rest)
  | b + 1, ns, items =>
    (readSamplePairs ns items).bind fun row =>
      (readBeams b ns row.2).map fun rows => (row.1 :: rows.1, rows.2)

/-- Member `SignalBuffer::LoadFromFile` (signal_buffer.cpp lines 17-68): read the
two-integer header, validate 1-256 beams and 100-1300000 samples, resize
and fill every sample from the stream; any read past the end fails.  The
embedding returns the loaded buffer; trailing stream content is ignored as
in the C++. -/
def SignalBuffer.LoadFromFile (file : List FileItem) : Option SignalBuffer :=
  match file with
  | FileItem.u32 nb :: FileItem.u32 ns :: rest =>
    if nb = 0 ∨ 256 < nb then none
    else if ns < 100 ∨ 1300000 < ns then none
    else (readBeams nb ns rest).map fun rows => ⟨nb, ns, rows.1⟩
  | _ => none

lemma range_map_getD {α β : Type} (l : List α) (f : α → β) (d : α) :
    (List.range l.length).map (fun i => f (l.getD i d)) = l.map f := by
  induction l with
  | nil => simp
  | cons hd tl ih =>
    rw [List.length_cons, List.range_succ_eq_map, List.map_cons, List.map_map]
    refine congrArg₂ List.cons (by rw [List.getD_cons_zero]) ?_
    rw [show ((fun i => f ((hd :: tl).getD i d)) ∘ Nat.succ) = fun i => f (tl.getD i d) by
      funext i
      simp [Function.comp, List.getD_cons_succ]]
    exact ih

lemma readSamplePairs_roundtrip :
    ∀ (row : List Cplx) (rest : List FileItem),
    readSamplePairs row.length (serializeRow row ++ rest) = some (row, rest) := by
  intro row
  induction row with
  | nil => intro rest; simp [serializeRow, readSamplePairs]
  | cons z zs ih =>
    intro rest
    rw [serializeRow, List.map_cons, List.flatten_cons]
    show readSamplePairs (zs.length + 1)
      (FileItem.f32 z.1 :: FileItem.f32 z.2 :: (serializeRow zs ++ rest)) = _
    rw [readSamplePairs, ih rest, Option.map_some']

lemma readBeams_roundtrip (ns : ℕ) :
    ∀ (rows : List (List Cplx)) (rest : List FileItem),
    (∀ row ∈ rows, row.length = ns) →
    readBeams rows.length ns ((rows.map serializeRow).flatten ++ rest) = some (rows, rest) := by
  intro rows
  induction rows with
  | nil => intro rest _; simp [readBeams]
  | cons r rs ih =>
    intro rest h
    rw [List.map_cons, List.flatten_cons, List.length_cons, List.append_assoc]
    rw [readBeams]
    have hr : r.length = ns := h r (List.mem_cons_self r rs)
    rw [show readSamplePairs ns (serializeRow r ++ ((rs.map serializeRow).flatten ++ rest)) =
        some (r, (rs.map serializeRow).flatten ++ rest) by
      rw [← hr]; exact readSamplePairs_roundtrip r _]
    rw [Option.some_bind, ih rest (fun row hrow => h row (List.mem_cons_of_mem r hrow)),
      Option.map_some']

/-- C6: for every valid SignalBuffer, SaveToFile succeeds, writes the two
dimensions as unmodified 32-bit headers, and LoadFromFile of the produced
stream reproduces the buffer exactly (lossless round trip). -/
theorem claim_C6_save_load_roundtrip (buf : SignalBuffer) (h : buf.IsValid = true) :
    buf.SaveToFile.isSome = true ∧
    (buf.SaveToFile.getD []).take 2 =
      [FileItem.u32 buf.num_beams, FileItem.u32 buf.num_samples] ∧
    SignalBuffer.LoadFromFile (buf.SaveToFile.getD []) = some buf := by
  obtain ⟨⟨hb1, hb2⟩, ⟨hs1, hs2⟩, hlen, hrows⟩ := (isValid_iff buf).1 h
  have hmb : buf.num_beams % 2 ^ 32 = buf.num_beams := Nat.mod_eq_of_lt (by omega)
  have hms : buf.num_samples % 2 ^ 32 = buf.num_samples := Nat.mod_eq_of_lt (by omega)
  have hsave : buf.SaveToFile =
      some ([FileItem.u32 buf.num_beams, FileItem.u32 buf.num_samples] ++
        (buf.beams_.map serializeRow).flatten) := by
    unfold SignalBuffer.SaveToFile
    rw [if_neg (by simp [h]), hmb, hms]
    refine congrArg some (congrArg _ (congrArg List.flatten ?_))
    have hout : (List.range buf.num_beams).map (fun beam =>
        ((List.range buf.num_samples).map fun sample =>
          [FileItem.f32 ((buf.beams_.getD beam []).getD sample (0, 0)).1,
           FileItem.f32 ((buf.beams_.getD beam []).getD sample (0, 0)).2]).flatten) =
        buf.beams_.map (fun row =>
          ((List.range buf.num_samples).map fun sample =>
            [FileItem.f32 (row.getD sample (0, 0)).1,
             FileItem.f32 (row.getD sample (0, 0)).2]).flatten) := by
      rw [← hlen]
      exact range_map_getD buf.beams_ (fun row =>
        ((List.range buf.num_samples).map fun sample =>
          [FileItem.f32 (row.getD sample (0, 0)).1,
           FileItem.f32 (row.getD sample (0, 0)).2]).flatten) []
    rw [hout]
    refine List.map_congr_left ?_
    intro row hrow
    rw [serializeRow, ← hrows row hrow]
    refine congrArg List.flatten ?_
    exact range_map_getD row (fun z => [FileItem.f32 z.1, FileItem.f32 z.2]) (0, 0)
  rw [hsave]
  refine ⟨rfl, by simp, ?_⟩
  show SignalBuffer.LoadFromFile
    (FileItem.u32 buf.num_beams :: FileItem.u32 buf.num_samples ::
      (buf.beams_.map serializeRow).flatten) = some buf
  rw [SignalBuffer.LoadFromFile]
  rw [if_neg (by omega), if_neg (by omega)]
  have hload := readBeams_roundtrip buf.num_samples buf.beams_ [] hrows
  rw [List.append_nil] at hload
  rw [← hlen, hload, Option.map_some', hlen]

/-- Witness for C6: the concrete 1× 100 buffer round-trips through the
binary file format. -/
theorem claim_C6_save_load_roundtrip_witness :
    bufValid.SaveToFile.isSome = true ∧
    SignalBuffer.LoadFromFile (bufValid.SaveToFile.getD []) = some bufValid := by
  have h := claim_C6_save_load_roundtrip bufValid bufValid_isValid
  exact ⟨h.1, h.2.2⟩

/-- The timing metric struct of profiling_engine.h: running aggregate for
one named operation. -/
structure TimingMetric where
  name : String
  time_ms : ℚ
  call_count : ℕ
  min_time_ms : ℚ
  max_time_ms : ℚ
  avg_time_ms : ℚ
deriving DecidableEq

/-- The default-constructed TimingMetric (empty name, zeros). -/
def TimingMetric.init : TimingMetric := ⟨"", 0, 0, 0, 0, 0⟩

/-- The ProfilingEngine state: the enabled flag, the open-timer map keyed
by name (timestamps as integer microsecond ticks), the per-name metric
map and the running total.  The C++ `std::map`s are modelled as partial
functions. -/
structure ProfilingEngine where
  profiling_enabled : Bool
  start_times : String → Option ℤ
  metrics : String → Option TimingMetric
  total_time_ms : ℚ

/-- A fresh engine (constructor: profiling enabled, empty maps). -/
def ProfilingEngine.init : ProfilingEngine := ⟨true, fun _ => none, fun _ => none, 0⟩

/-- The metric-level body of `ProfilingEngine::UpdateMetricStats`
(profiling_engine.cpp lines 148-164): `metrics_[name]` default-constructs
a zero metric on first use; accumulate sum and count, set min/max on the
first call and fold them in afterwards, recompute the mean. -/
def updatedMetric (old0 : Option TimingMetric) (name : String) (time_ms : ℚ) : TimingMetric :=
  let old := old0.getD TimingMetric.init
  let m1 : TimingMetric :=
    { old with name := name, time_ms := old.time_ms + time_ms, call_count := old.call_count + 1 }
  let m2 : TimingMetric :=
    if m1.call_count = 1 then { m1 with min_time_ms := time_ms, max_time_ms := time_ms }
    else { m1 with min_time_ms := min m1.min_time_ms time_ms,
                   max_time_ms := max m1.max_time_ms time_ms }
  { m2 with avg_time_ms := m2.time_ms / (m2.call_count : ℚ) }

/-- Member `ProfilingEngine::UpdateMetricStats`: store the updated metric under
its name and add into the running total. -/
def UpdateMetricStats (e : ProfilingEngine) (name : String) (time_ms : ℚ) : ProfilingEngine :=
  { profiling_enabled := e.profiling_enabled
    start_times := e.start_times
    metrics := fun n =>
      if n = name then some (updatedMetric (e.metrics name) name time_ms) else e.metrics n
    total_time_ms := e.total_time_ms + time_ms }

/-- Member `ProfilingEngine::StartTimer`: record the current wall-clock tick under
the name (the clock value is passed explicitly). -/
def StartTimer (e : ProfilingEngine) (name : String) (now : ℤ) : ProfilingEngine :=
  if ¬ e.profiling_enabled then e
  else { e with start_times := fun n => if n = name then some now else e.start_times n }

/-- Member `ProfilingEngine::StopTimer` (profiling_engine.cpp lines 19-39): a stop
with no recorded start logs a warning and changes nothing; otherwise the
elapsed microseconds divided by 1000 are folded into the metric and the
start entry is erased. -/
def StopTimer (e : ProfilingEngine) (name : String) (now : ℤ) : ProfilingEngine :=
  if ¬ e.profiling_enabled then e
  else
    (e.start_times name).elim e fun t0 =>
      let time_ms : ℚ := ((now - t0 : ℤ) : ℚ) / 1000
      let e' := UpdateMetricStats e name time_ms
      { e' with start_times := fun n => if n = name then none else e'.start_times n }

/-- Elapsed milliseconds of one (start tick, stop tick) cycle. -/
def durMs (p : ℤ × ℤ) : ℚ := ((p.2 - p.1 : ℤ) : ℚ) / 1000

/-- A sequence of matched StartTimer / StopTimer cycles under one name. -/
def runCycles (name : String) : ProfilingEngine → List (ℤ × ℤ) → ProfilingEngine
  | e, [] => e
  | e, p :: ps => runCycles name (StopTimer (StartTimer e name p.1) name p.2) ps

lemma updatedMetric_none (name : String) (d : ℚ) :
    updatedMetric none name d = ⟨name, d, 1, d, d, d⟩ := by
  unfold updatedMetric
  simp [TimingMetric.init]

lemma updatedMetric_some (m : TimingMetric) (hc : m.call_count ≠ 0) (name : String) (d : ℚ) :
    updatedMetric (some m) name d =
      ⟨name, m.time_ms + d, m.call_count + 1, min m.min_time_ms d, max m.max_time_ms d,
        (m.time_ms + d) / ((m.call_count + 1 : ℕ) : ℚ)⟩ := by
  simp only [updatedMetric, Option.getD_some]
  split
  · next hcond =>
      exfalso
      have hc1 : m.call_count + 1 = 1 := hcond
      omega
  · rfl

/-- The state after one matched StartTimer / StopTimer cycle. -/
def cycleResult (e : ProfilingEngine) (name : String) (p : ℤ × ℤ) : ProfilingEngine :=
  { profiling_enabled := e.profiling_enabled
    start_times := fun n => if n = name then none else e.start_times n
    metrics := fun n =>
      if n = name then some (updatedMetric (e.metrics name) name (durMs p))
      else e.metrics n
    total_time_ms := e.total_time_ms + durMs p }

lemma cycle_state (e : ProfilingEngine) (name : String) (p : ℤ × ℤ)
    (he : e.profiling_enabled = true) :
    StopTimer (StartTimer e name p.1) name p.2 = cycleResult e name p := by
  unfold cycleResult
  have hstart : StartTimer e name p.1 =
      { e with start_times := fun n => if n = name then some p.1 else e.start_times n } := by
    unfold StartTimer; rw [if_neg (by simp [he])]
  rw [hstart]
  unfold StopTimer
  rw [if_neg (by simp [he])]
  show (if name = name then some p.1 else e.start_times name).elim _ _ = _
  rw [if_pos rfl, Option.elim_some]
  unfold UpdateMetricStats
  refine congrArg₂ (fun st ms => ProfilingEngine.mk e.profiling_enabled st ms
    (e.total_time_ms + durMs p)) ?_ ?_
  · funext n
    by_cases hn : n = name <;> simp [hn]
  · funext n
    by_cases hn : n = name <;> simp [hn, durMs]

lemma runCycles_metrics (name : String) :
    ∀ (ps : List (ℤ × ℤ)) (e : ProfilingEngine) (m : TimingMetric),
    e.profiling_enabled = true →
    e.metrics name = some m →
    m.call_count ≠ 0 → m.name = name →
    m.avg_time_ms = m.time_ms / ((m.call_count : ℕ) : ℚ) →
    (runCycles name e ps).metrics name =
      some ⟨name, m.time_ms + (ps.map durMs).sum, m.call_count + ps.length,
        ps.foldl (fun a q => min a (durMs q)) m.min_time_ms,
        ps.foldl (fun a q => max a (durMs q)) m.max_time_ms,
        (m.time_ms + (ps.map durMs).sum) / ((m.call_count + ps.length : ℕ) : ℚ)⟩ := by
  intro ps
  induction ps with
  | nil =>
    intro e m he hm hc hn havg
    show e.metrics name = _
    rw [hm]
    refine congrArg some ?_
    obtain ⟨mn, mt, mc, mmin, mmax, mavg⟩ := m
    simp only at hn havg ⊢
    simp [hn, havg]
  | cons p ps ih =>
    intro e m he hm hc hn havg
    show (runCycles name (StopTimer (StartTimer e name p.1) name p.2) ps).metrics name = _
    rw [cycle_state e name p he]
    have hm1 : (cycleResult e name p).metrics name =
        some (updatedMetric (some m) name (durMs p)) := by
      show (if name = name then _ else _) = _
      rw [if_pos rfl, hm]
    rw [updatedMetric_some m hc name (durMs p)] at hm1
    have he1 : (cycleResult e name p).profiling_enabled = true := he
    have hres := ih _ _ he1 hm1 (by simp) rfl rfl
    rw [hres]
    refine congrArg some ?_
    simp only [TimingMetric.mk.injEq, List.map_cons, List.sum_cons, List.foldl_cons]
    refine ⟨trivial, by ring, by simp [List.length_cons]; omega, trivial, trivial, ?_⟩
    have hc2 : ((m.call_count + 1 + ps.length : ℕ) : ℚ) = ((m.call_count + (p :: ps).length : ℕ) : ℚ) := by
      congr 1
      simp [List.length_cons]
      omega
    rw [hc2]
    ring

/-- C7: stopping a timer that was never started changes nothing; after k
matched start/stop cycles under one name starting from an engine with no
metric for that name, the metric holds call_count = k, time_ms = the sum
of the k durations, min/max = their minimum/maximum and
avg_time_ms = time_ms / call_count. -/
theorem claim_C7_timer_aggregation :
    (∀ (e : ProfilingEngine) (name : String) (now : ℤ),
      e.start_times name = none → StopTimer e name now = e)
    ∧ ∀ (e : ProfilingEngine) (name : String) (p0 : ℤ × ℤ) (ps : List (ℤ × ℤ)),
      e.profiling_enabled = true → e.metrics name = none →
      (runCycles name e (p0 :: ps)).metrics name =
        some ⟨name, durMs p0 + (ps.map durMs).sum, 1 + ps.length,
          ps.foldl (fun a q => min a (durMs q)) (durMs p0),
          ps.foldl (fun a q => max a (durMs q)) (durMs p0),
          (durMs p0 + (ps.map durMs).sum) / ((1 + ps.length : ℕ) : ℚ)⟩ := by
  constructor
  · intro e name now hstart
    unfold StopTimer
    by_cases he : e.profiling_enabled
    · rw [if_neg (by simp [he]), hstart, Option.elim_none]
    · rw [if_pos (by simpa using he)]
  · intro e name p0 ps he hm
    show (runCycles name (StopTimer (StartTimer e name p0.1) name p0.2) ps).metrics name = _
    rw [cycle_state e name p0 he]
    have hm1 : (cycleResult e name p0).metrics name = some (updatedMetric none name (durMs p0)) := by
      show (if name = name then _ else _) = _
      rw [if_pos rfl, hm]
    rw [updatedMetric_none name (durMs p0)] at hm1
    have he1 : (cycleResult e name p0).profiling_enabled = true := he
    have hres := runCycles_metrics name ps (cycleResult e name p0) _ he1 hm1
      (by simp) rfl (by simp)
    rw [hres]

/-- Witness for C7: two cycles of 2 ms and 1 ms under the name "k" on a
fresh engine yield count 2, total 3 ms, min 1 ms, max 2 ms, mean 1.5 ms;
and a stop with no start on the fresh engine is a no-op. -/
theorem claim_C7_timer_aggregation_witness :
    StopTimer ProfilingEngine.init "k" 5 = ProfilingEngine.init ∧
    (runCycles "k" ProfilingEngine.init ((0, 2000) :: [(0, 1000)])).metrics "k" =
      some ⟨"k", durMs (0, 2000) + ([(0, 1000)].map durMs).sum, 1 + [(0, 1000)].length,
        [(0, 1000)].foldl (fun a q => min a (durMs q)) (durMs (0, 2000)),
        [(0, 1000)].foldl (fun a q => max a (durMs q)) (durMs (0, 2000)),
        (durMs (0, 2000) + ([(0, 1000)].map durMs).sum) / ((1 + [(0, 1000)].length : ℕ) : ℚ)⟩ :=
  ⟨claim_C7_timer_aggregation.1 ProfilingEngine.init "k" 5 rfl,
   claim_C7_timer_aggregation.2 ProfilingEngine.init "k" (0, 2000) [(0, 1000)] rfl rfl⟩

/-- A compiled program handle (cl_program), identified by creation order. -/
abbrev Program := ℕ

/-- The OpenCLManager state relevant to program caching
(opencl_manager.cpp): the cache mapping source hash to compiled program,
plus bookkeeping that counts real compilations and names fresh handles.
The mutex is irrelevant to the sequential-call claim. -/
structure OpenCLManager where
  program_cache : List (String × Program)
  next_handle : Program
  compile_count : ℕ
deriving DecidableEq

/-- Member `OpenCLManager::CompileProgram` modelled as allocating a fresh handle:
the real function asks the OpenCL runtime to build the source and returns
a new cl_program; the model counts each such build. -/
def CompileProgram (m : OpenCLManager) : Program × OpenCLManager :=
  (m.next_handle,
    { m with next_handle := m.next_handle + 1, compile_count := m.compile_count + 1 })

/-- Member `OpenCLManager::GetOrCompileProgram` (opencl_manager.cpp lines
175-199): hash the source text (`hash` abstracts the
implementation-defined `std::hash<std::string>` of GetSourceHash, a pure
function of the source text only), return the cached program on a hit,
and on a miss compile and insert under the hash. -/
def GetOrCompileProgram (hash : String → String) (m : OpenCLManager)
    (source : String) : Program × OpenCLManager :=
  (m.program_cache.lookup (hash source)).elim
    ((CompileProgram m).1,
      { (CompileProgram m).2 with
        program_cache := (hash source, (CompileProgram m).1) :: (CompileProgram m).2.program_cache })
    (fun p => (p, m))

/-- C8: two successive requests for byte-identical source return the same
compiled-program handle; the second call is a pure cache hit (it changes
nothing, in particular compiles nothing), and when the source was not yet
cached the first call performs exactly one compilation.  The key is the
content hash of the source text; no file path enters the signature at
all. -/
theorem claim_C8_program_cache_single_compile (hash : String → String)
    (m : OpenCLManager) (source : String) :
    (GetOrCompileProgram hash (GetOrCompileProgram hash m source).2 source).1 =
      (GetOrCompileProgram hash m source).1
    ∧ (GetOrCompileProgram hash (GetOrCompileProgram hash m source).2 source).2 =
      (GetOrCompileProgram hash m source).2
    ∧ (GetOrCompileProgram hash m source).2.compile_count ≤ m.compile_count + 1
    ∧ (m.program_cache.lookup (hash source) = none →
        (GetOrCompileProgram hash m source).2.compile_count = m.compile_count + 1) := by
  cases hl : m.program_cache.lookup (hash source) with
  | some p =>
    have h1 : GetOrCompileProgram hash m source = (p, m) := by
      unfold GetOrCompileProgram
      rw [hl, Option.elim_some]
    rw [h1]
    refine ⟨by rw [h1], by rw [h1], ?_, ?_⟩
    · show m.compile_count ≤ m.compile_count + 1
      omega
    · intro hnone
      cases hnone
  | none =>
    have h1 : GetOrCompileProgram hash m source =
        (m.next_handle,
          ⟨(hash source, m.next_handle) :: m.program_cache,
           m.next_handle + 1, m.compile_count + 1⟩) := by
      unfold GetOrCompileProgram
      rw [hl, Option.elim_none]
      rfl
    rw [h1]
    have h2 : GetOrCompileProgram hash
        (⟨(hash source, m.next_handle) :: m.program_cache,
          m.next_handle + 1, m.compile_count + 1⟩ : OpenCLManager) source =
        (m.next_handle,
          ⟨(hash source, m.next_handle) :: m.program_cache,
           m.next_handle + 1, m.compile_count + 1⟩) := by
      unfold GetOrCompileProgram
      rw [show (((hash source, m.next_handle) :: m.program_cache).lookup (hash source)) =
          some m.next_handle by simp [List.lookup], Option.elim_some]
    rw [h2]
    exact ⟨rfl, rfl, Nat.le_refl _, fun _ => rfl⟩

/-- Witness for C8: on a fresh manager, requesting the same source twice
returns the handle of the single compilation and counts exactly one
compile. -/
theorem claim_C8_program_cache_single_compile_witness :
    (GetOrCompileProgram id (GetOrCompileProgram id ⟨[], 0, 0⟩ "kernel").2 "kernel").1 =
      (GetOrCompileProgram id (⟨[], 0, 0⟩ : OpenCLManager) "kernel").1
    ∧ (GetOrCompileProgram id (⟨[], 0, 0⟩ : OpenCLManager) "kernel").2.compile_count = 0 + 1 :=
  ⟨(claim_C8_program_cache_single_compile id ⟨[], 0, 0⟩ "kernel").1,
   (claim_C8_program_cache_single_compile id ⟨[], 0, 0⟩ "kernel").2.2.2 rfl⟩
